import Mathlib

set_option maxHeartbeats 1000000
set_option maxRecDepth 4000

namespace Oscrypto

/-! Shallow embedding of `oscrypto/_pkcs1.py` and `oscrypto/_tls.py`.
Byte strings are modelled as lists of naturals; a well-formed byte string
has every entry below 256.  Python exceptions are modelled by `Option`
(`none` = an uncaught exception escapes), and helpers imported from
modules outside the two source files (`_int.py`, `util.py`, the cipher
suite registry, `hashlib`, `os.urandom`) are modelled from the spec as
injected collaborators. -/

def isBytes (l : List Nat) : Prop := ∀ b ∈ l, b < 256

instance (l : List Nat) : Decidable (isBytes l) := by
  unfold isBytes; infer_instance

/-- Modelled from the spec: the `int_from_bytes` helper from the `_int`
module (not part of the two core files), the big-endian unsigned integer
interpretation of a byte string used by the XOR-then-repad step; the empty
string denotes zero. -/
def int_from_bytes : List Nat → Nat
  | [] => 0
  | b :: rest => b * 256 ^ rest.length + int_from_bytes rest

/-- The base-256 division loop behind `int_to_bytes`, recursing
structurally on a fuel argument that dominates the number of divisions. -/
def int_to_bytes_go (fuel v : Nat) : List Nat :=
  match fuel with
  | 0 => [v % 256]
  | fuel + 1 =>
    if v < 256 then [v] else int_to_bytes_go fuel (v / 256) ++ [v % 256]

/-- Modelled from the spec: the `int_to_bytes` helper from the `_int`
module, the minimal big-endian encoding of a non-negative integer
(one zero byte for zero). -/
def int_to_bytes (v : Nat) : List Nat := int_to_bytes_go v v

/-- Modelled from the spec: the `fill_width` helper from the `_int` module,
left-padding a byte string with zero bytes up to the requested width. -/
def fill_width (bs : List Nat) (width : Nat) : List Nat :=
  List.replicate (width - bs.length) 0 ++ bs

/-- Modelled from the spec: the `constant_compare` collaborator from
`util.py`; functionally it decides byte-string equality (false on length
mismatch), its constant-time execution being a non-functional property. -/
def constant_compare (a b : List Nat) : Bool := a == b

/-- Fixed-width big-endian encoding of `v` into `n` bytes (the reasoning
counterpart of `int_to_bytes` + `fill_width`). -/
def bytesBE : Nat → Nat → List Nat
  | 0, _ => []
  | n + 1, v => bytesBE n (v / 256) ++ [v % 256]

/-- Python `ord` applied to a one-byte slice `l[0:1]`: raises (`none`) on
an empty byte string. -/
def ord1 (l : List Nat) : Option Nat :=
  match l with
  | [] => none
  | b :: _ => some b

/-- The closed enumeration of supported hash algorithm names. -/
inductive HashName where
  | sha1
  | sha224
  | sha256
  | sha384
  | sha512
deriving DecidableEq

/-- The digest-length table hardcoded in `mgf1`. -/
def hashLength : HashName → Nat
  | .sha1 => 20
  | .sha224 => 28
  | .sha256 => 32
  | .sha384 => 48
  | .sha512 => 64

/-- A hash capability: the `hashlib` collaborator, mapping an algorithm
name and a message to a digest. -/
def HashFun : Type := HashName → List Nat → List Nat

/-- `struct.Struct(b'>I').pack`: 4-byte big-endian encoding of the counter. -/
def be32 (n : Nat) : List Nat := bytesBE 4 n

/-- `mgf1` from `_pkcs1.py`: the PKCS#1 MGF1 mask generation algorithm.
`none` models the `ValueError` contract violation for `mask_length < 1`. -/
def mgf1 (hash : HashFun) (hash_algorithm : HashName) (seed : List Nat)
    (mask_length : Nat) : Option (List Nat) :=
  if mask_length < 1 then none
  else
    let hash_length := hashLength hash_algorithm
    let iterations := (mask_length + hash_length - 1) / hash_length
    let output := (List.range iterations).foldl
      (fun out counter => out ++ hash hash_algorithm (seed ++ be32 counter)) []
    some (output.take mask_length)

/-- `add_pss_padding` from `_pkcs1.py` (EMSA-PSS-Encode).  The secure
randomness source `urandom` is injected; `none` models the `ValueError`
contract violations (key too small, infeasible salt/hash combination). -/
def add_pss_padding (hash : HashFun) (hash_algorithm : HashName)
    (salt_length key_length : Nat) (message : List Nat)
    (urandom : Nat → List Nat) : Option (List Nat) :=
  if key_length < 512 then none
  else
    let em_bits := key_length - 1
    let em_len := (em_bits + 7) / 8
    let message_digest := hash hash_algorithm message
    let hash_length := message_digest.length
    if em_len < hash_length + salt_length + 2 then none
    else
      let salt := if salt_length > 0 then urandom salt_length else []
      let m_prime := List.replicate 8 0 ++ message_digest ++ salt
      let m_prime_digest := hash hash_algorithm m_prime
      let padding := List.replicate (em_len - salt_length - hash_length - 2) 0
      let db := padding ++ [1] ++ salt
      (mgf1 hash hash_algorithm m_prime_digest (em_len - hash_length - 1)).bind
        fun db_mask =>
      let masked_db0 := int_to_bytes
        (int_from_bytes db ^^^ int_from_bytes db_mask)
      let masked_db := fill_width masked_db0 db_mask.length
      let zero_bits := 8 * em_len - em_bits
      let left_int_mask := 2 ^ (8 - zero_bits) - 1
      (if left_int_mask ≠ 255 then
        (ord1 masked_db).map fun b0 =>
          (left_int_mask &&& b0) :: masked_db.drop 1
      else
        some masked_db).map fun masked_db =>
      masked_db ++ m_prime_digest ++ [0xBC]

/-- Lines 162–184 of `_pkcs1.py` (`verify_pss_padding`): recover the data
block `DB` from `maskedDB` and the recovered digest seed, exactly as the
source does — MGF1 mask, the `left_int_mask` adjustment of the mask's
first byte, arbitrary-precision XOR, left re-padding. -/
def pss_unmask (hash : HashFun) (hash_algorithm : HashName)
    (zero_bits mask_length : Nat) (masked_db m_prime_digest : List Nat) :
    Option (List Nat) :=
  (mgf1 hash hash_algorithm m_prime_digest mask_length).bind fun db_mask0 =>
  let left_int_mask := 2 ^ (8 - zero_bits) - 1
  (if left_int_mask ≠ 255 then
    (ord1 db_mask0).map fun b0 => (left_int_mask &&& b0) :: db_mask0.drop 1
  else
    some db_mask0).map fun db_mask =>
  let db0 := int_to_bytes
    (int_from_bytes masked_db ^^^ int_from_bytes db_mask)
  if db0.length < masked_db.length then
    List.replicate (masked_db.length - db0.length) 0 ++ db0
  else db0

/-- Lines 162–200 of `_pkcs1.py` (`verify_pss_padding` after the trailer
check), as a function of the two slices the code takes from the
signature. -/
def verify_core (hash : HashFun) (hash_algorithm : HashName)
    (salt_length em_len zero_bits hash_length : Nat)
    (message_digest masked_db m_prime_digest : List Nat) : Option Bool :=
  (ord1 masked_db).bind fun first_byte =>
  if first_byte >>> (8 - zero_bits) ≠ 0 then some false
  else
    (pss_unmask hash hash_algorithm zero_bits (em_len - hash_length - 1)
        masked_db m_prime_digest).map fun db =>
    let zero_length := em_len - hash_length - salt_length - 2
    if ¬ constant_compare (db.take zero_length) (List.replicate zero_length 0)
      then false
    else if (db.drop zero_length).take 1 ≠ [1] then false
    else
      -- Python computes the salt as db[0-salt_length:], which is the whole
      -- of db (not the empty string) when salt_length is zero.
      let salt := if salt_length = 0 then db
                  else db.drop (db.length - salt_length)
      let m_prime := List.replicate 8 0 ++ message_digest ++ salt
      let h_prime := hash hash_algorithm m_prime
      constant_compare m_prime_digest h_prime

/-- `verify_pss_padding` from `_pkcs1.py` (EMSA-PSS verification).
`some b` is the returned boolean; `none` models an uncaught exception. -/
def verify_pss_padding (hash : HashFun) (hash_algorithm : HashName)
    (salt_length key_length : Nat) (message signature : List Nat) :
    Option Bool :=
  let em_bits := key_length - 1
  let em_len := (em_bits + 7) / 8
  let message_digest := hash hash_algorithm message
  let hash_length := message_digest.length
  if em_len < hash_length + salt_length + 2 then some false
  else if signature.drop (signature.length - 1) ≠ [0xBC] then some false
  else
    let zero_bits := 8 * em_len - em_bits
    let masked_db_length := em_len - hash_length - 1
    verify_core hash hash_algorithm salt_length em_len zero_bits hash_length
      message_digest (signature.take masked_db_length)
      ((signature.drop masked_db_length).take hash_length)

/-- A byte string with the top `zero_bits` bits of its first byte cleared
(used to state what the verifier actually XORs against). -/
def clear_top_bits (zero_bits : Nat) (l : List Nat) : List Nat :=
  match l with
  | [] => []
  | b :: rest => (b % 2 ^ (8 - zero_bits)) :: rest

/-! ## The TLS handshake introspector (`_tls.py`) -/

/-- The record length read at cursor position `p`: the last two bytes of
the 5-byte record header `buf[p:p+5]`, big-endian (shorter near the end of
the buffer, as Python slicing is forgiving). -/
def record_length_at (buf : List Nat) (p : Nat) : Nat :=
  int_from_bytes (((buf.drop p).take 5).drop 3)

/-- Whether the record at cursor position `p` is a Handshake (0x16) record
whose payload starts with the requested sub-type byte. -/
def record_matches (buf : List Nat) (sub_type p : Nat) : Bool :=
  ((buf.drop p).take 5).take 1 == [0x16] && (buf.drop (p + 5)).take 1 == [sub_type]

/-- The record-scanning loop in fuel-passing form (the fuel dominates the
number of records; each step advances the cursor by at least 5). -/
def find_handshake_message_go (buf : List Nat) (sub_type : Nat)
    (fuel p : Nat) : Option (List Nat) :=
  match fuel with
  | 0 => none
  | fuel + 1 =>
    if p < buf.length then
      let record_header := (buf.drop p).take 5
      let record_length := int_from_bytes (record_header.drop 3)
      if record_header.take 1 = [0x16] ∧
          (buf.drop (p + 5)).take 1 = [sub_type] then
        some ((buf.drop (p + 5)).take record_length)
      else
        find_handshake_message_go buf sub_type fuel (p + 5 + record_length)
    else none

/-- The record-scanning loop shared by `extract_chain` (lines 27–37) and
`get_dh_params_length` (lines 70–80) of `_tls.py`: walk the buffer in
`5 + record_length` steps and return the payload of the first Handshake
record whose payload starts with `sub_type`, or `none` when no record
matches. -/
def find_handshake_message (buf : List Nat) (sub_type p : Nat) :
    Option (List Nat) :=
  find_handshake_message_go buf sub_type (buf.length + 1 - p) p

/-- The cursor-position sequence of the record scanner, in fuel-passing
form. -/
def record_starts_go (buf : List Nat) (fuel p : Nat) : List Nat :=
  match fuel with
  | 0 => []
  | fuel + 1 =>
    if p < buf.length then
      p :: record_starts_go buf fuel (p + 5 + record_length_at buf p)
    else []

/-- The sequence of cursor positions the record scanner visits, starting
from `p` (each within the buffer). -/
def record_starts (buf : List Nat) (p : Nat) : List Nat :=
  record_starts_go buf (buf.length + 1 - p) p

/-- The certificate-list walk of `extract_chain` (lines 43–49 of
`_tls.py`): repeatedly read a 3-byte big-endian length, slice one DER
blob, hand it to the external decoder `load`, and advance. -/
def parse_certs {α : Type} (load : List Nat → α) (message_bytes : List Nat)
    (p : Nat) (output : List α) : List α :=
  if _h : p < message_bytes.length then
    let cert_length := int_from_bytes ((message_bytes.drop p).take 3)
    let cert_bytes := (message_bytes.drop (p + 3)).take cert_length
    parse_certs load message_bytes (p + 3 + cert_length) (output ++ [load cert_bytes])
  else output
termination_by message_bytes.length - p
decreasing_by omega

/-- `extract_chain` from `_tls.py`; the ASN.1 certificate decoder is the
injected external collaborator `load`. -/
def extract_chain {α : Type} (load : List Nat → α) (server_handshake_bytes : List Nat) :
    List α :=
  match find_handshake_message server_handshake_bytes 0x0b 0 with
  | some message_bytes => parse_certs load message_bytes 7 []
  | none => []

/-- `get_dh_params_length` from `_tls.py`: skip the 4-byte message header
of the ServerKeyExchange message, read 2 bytes big-endian, multiply by 8. -/
def get_dh_params_length (server_handshake_bytes : List Nat) : Option Nat :=
  match find_handshake_message server_handshake_bytes 0x0c 0 with
  | some message_bytes => some (int_from_bytes ((message_bytes.drop 4).take 2) * 8)
  | none => none

/-- The protocol names produced by `parse_session_info`, as an enumeration
(the Python strings "SSLv3" … "TLSv1.3"). -/
inductive TlsProtocol where
  | sslv3
  | tlsv1
  | tlsv1_1
  | tlsv1_2
  | tlsv1_3
deriving DecidableEq

/-- The session-id / session-ticket states of `parse_session_info`, as an
enumeration (the Python strings "new" and "reused"). -/
inductive SessionLabel where
  | new
  | reused
deriving DecidableEq

/-- The result dictionary of `parse_session_info`.  Cipher-suite names
come from the external `CIPHER_SUITE_MAP` registry, abstracted to `α`. -/
structure SessionInfo (α : Type) where
  protocol : Option TlsProtocol
  cipher_suite : Option α
  compression : Bool
  session_id : Option SessionLabel
  session_ticket : Option SessionLabel
deriving DecidableEq

/-- The fixed protocol-version table of `parse_session_info` (a Python
dict whose lookup raises `KeyError`, hence `Option`). -/
def tls_protocol_table (code : List Nat) : Option TlsProtocol :=
  if code = [3, 0] then some TlsProtocol.sslv3
  else if code = [3, 1] then some TlsProtocol.tlsv1
  else if code = [3, 2] then some TlsProtocol.tlsv1_1
  else if code = [3, 3] then some TlsProtocol.tlsv1_2
  else if code = [3, 4] then some TlsProtocol.tlsv1_3
  else none

/-- The extension-scanning loop of `parse_session_info` (lines 152–157 and
185–190 of `_tls.py`): walk `{type:2, length:2, value}` entries, setting
the ticket flag to `label` whenever extension type 35 is seen. -/
def scan_ticket (record : List Nat) (end_pos : Nat) (label : SessionLabel)
    (start : Nat) (ticket : Option SessionLabel) : Option SessionLabel :=
  if _h : start < end_pos then
    let extension_type := int_from_bytes ((record.drop start).take 2)
    let extension_length := int_from_bytes ((record.drop (start + 2)).take 2)
    scan_ticket record end_pos label (start + 4 + extension_length)
      (if extension_type = 35 then some label else ticket)
  else ticket
termination_by end_pos - start
decreasing_by omega

/-- The ServerHello block of `parse_session_info` (lines 120–157 of
`_tls.py`), returning `(protocol, cipher_suite, compression,
server_session_id, session_ticket)`; `none` models a `KeyError` escaping
from the protocol or cipher-suite dict lookups. -/
def server_hello_info {α : Type} (cipher_suite_map : List Nat → Option α)
    (server_handshake_bytes : List Nat) :
    Option (Option TlsProtocol × Option α × Bool × Option (List Nat) ×
      Option SessionLabel) :=
  if server_handshake_bytes.take 1 = [0x16] then
    let record_length := int_from_bytes ((server_handshake_bytes.take 5).drop 3)
    let record := (server_handshake_bytes.drop 5).take record_length
    if record.take 1 = [0x02] then
      (tls_protocol_table ((record.drop 4).take 2)).bind fun protocol =>
      let session_id_length := int_from_bytes ((record.drop 38).take 1)
      let server_session_id :=
        if session_id_length > 0 then some ((record.drop 39).take session_id_length)
        else none
      let cipher_suite_start := 39 + session_id_length
      (cipher_suite_map ((record.drop cipher_suite_start).take 2)).bind
        fun cipher_suite =>
      let compression_start := cipher_suite_start + 2
      let compression := (record.drop compression_start).take 1 ≠ [0]
      let extensions_length_start := compression_start + 1
      let session_ticket :=
        if extensions_length_start < record.length then
          let extensions_length :=
            int_from_bytes ((record.drop extensions_length_start).take 2)
          let extensions_start := extensions_length_start + 2
          scan_ticket record (extensions_start + extensions_length)
            SessionLabel.new extensions_start none
        else none
      some (some protocol, some cipher_suite, compression, server_session_id,
        session_ticket)
    else some (none, none, false, none, none)
  else some (none, none, false, none, none)

/-- The ClientHello block of `parse_session_info` (lines 159–190 of
`_tls.py`), returning `(client_session_id, session_ticket)`; it needs the
server session id and the ticket flag so far for its conditional
extension scan. -/
def client_hello_info (client_handshake_bytes : List Nat)
    (server_session_id : Option (List Nat)) (ticket : Option SessionLabel) :
    Option (List Nat) × Option SessionLabel :=
  if client_handshake_bytes.take 1 = [0x16] then
    let record_length := int_from_bytes ((client_handshake_bytes.take 5).drop 3)
    let record := (client_handshake_bytes.drop 5).take record_length
    if record.take 1 = [0x01] then
      let session_id_length := int_from_bytes ((record.drop 38).take 1)
      let client_session_id :=
        if session_id_length > 0 then some ((record.drop 39).take session_id_length)
        else none
      let cipher_suite_start := 39 + session_id_length
      let cipher_suite_length :=
        int_from_bytes ((record.drop cipher_suite_start).take 2)
      let compression_start := cipher_suite_start + 2 + cipher_suite_length
      let compression_length :=
        int_from_bytes ((record.drop compression_start).take 1)
      let ticket' :=
        if server_session_id = none ∧ ticket = none then
          let extensions_length_start := compression_start + 1 + compression_length
          if extensions_length_start < record.length then
            let extensions_length :=
              int_from_bytes ((record.drop extensions_length_start).take 2)
            let extensions_start := extensions_length_start + 2
            scan_ticket record (extensions_start + extensions_length)
              SessionLabel.reused extensions_start ticket
          else ticket
        else ticket
      (client_session_id, ticket')
    else (none, ticket)
  else (none, ticket)

/-- `parse_session_info` from `_tls.py`; `none` models a `KeyError`
escaping from the protocol or cipher-suite dict lookups. -/
def parse_session_info {α : Type} (cipher_suite_map : List Nat → Option α)
    (server_handshake_bytes client_handshake_bytes : List Nat) :
    Option (SessionInfo α) :=
  (server_hello_info cipher_suite_map server_handshake_bytes).map
    fun (protocol, cipher_suite, compression, server_session_id, ticket) =>
  let (client_session_id, session_ticket) :=
    client_hello_info client_handshake_bytes server_session_id ticket
  let session_id :=
    match server_session_id with
    | some ssid =>
      match client_session_id with
      | none => some SessionLabel.new
      | some csid =>
        if csid ≠ ssid then some SessionLabel.new else some SessionLabel.reused
    | none => none
  { protocol := protocol
    cipher_suite := cipher_suite
    compression := compression
    session_id := session_id
    session_ticket := session_ticket }

/-- The server session id `parse_session_info` extracts from the server
buffer (lines 120–137 of `_tls.py`), as a standalone observation. -/
def server_session_id_of (server_handshake_bytes : List Nat) :
    Option (List Nat) :=
  if server_handshake_bytes.take 1 = [0x16] then
    let record_length := int_from_bytes ((server_handshake_bytes.take 5).drop 3)
    let record := (server_handshake_bytes.drop 5).take record_length
    if record.take 1 = [0x02] then
      let session_id_length := int_from_bytes ((record.drop 38).take 1)
      if session_id_length > 0 then some ((record.drop 39).take session_id_length)
      else none
    else none
  else none

/-- The client session id `parse_session_info` extracts from the client
buffer (lines 159–168 of `_tls.py`), as a standalone observation. -/
def client_session_id_of (client_handshake_bytes : List Nat) :
    Option (List Nat) :=
  if client_handshake_bytes.take 1 = [0x16] then
    let record_length := int_from_bytes ((client_handshake_bytes.take 5).drop 3)
    let record := (client_handshake_bytes.drop 5).take record_length
    if record.take 1 = [0x01] then
      let session_id_length := int_from_bytes ((record.drop 38).take 1)
      if session_id_length > 0 then some ((record.drop 39).take session_id_length)
      else none
    else none
  else none

/-- Modelled from the spec: the session-id reconciliation tie-break table
of §4.7 — server present & client absent ↦ "new"; both present and equal ↦
"reused"; both present and unequal ↦ "new"; server absent ↦ unset. -/
def session_id_tie_break (server_sid client_sid : Option (List Nat)) :
    Option SessionLabel :=
  match server_sid, client_sid with
  | some _, none => some SessionLabel.new
  | some s, some c =>
    if c = s then some SessionLabel.reused else some SessionLabel.new
  | none, _ => none

/-! ## Concrete test instances (hash capabilities and buffers) -/

/-- A hash capability whose digest is 20 bytes and records the input
length: distinguishes inputs of different lengths. -/
def lengthHash : HashFun := fun _ m => (m.length % 256) :: List.replicate 19 0

/-- A constant 20-byte hash capability whose digest starts with a set top
bit. -/
def highBitHash : HashFun := fun _ _ => 128 :: List.replicate 19 0

/-- The constant all-zero 20-byte hash capability. -/
def zeroHash : HashFun := fun _ _ => List.replicate 20 0

/-- A handshake buffer holding one ServerKeyExchange record whose DH
prime-length field is 0x0100. -/
def dhDemoBuf : List Nat := [0x16, 3, 3, 0, 6, 0x0c, 0, 0, 2, 1, 0]

/-- A handshake buffer with two records (an alert, then a Finished-type
handshake record), none of which is a Certificate or ServerKeyExchange. -/
def noMatchBuf : List Nat := [0x15, 3, 3, 0, 2, 2, 40, 0x16, 3, 3, 0, 1, 20]

/-! ## Lemmas: fixed-width big-endian encodings and the bignum XOR -/

theorem bytesBE_length (n v : Nat) : (bytesBE n v).length = n := by
  induction n generalizing v with
  | zero => rfl
  | succ n ih => simp [bytesBE, ih]

theorem bytesBE_zero (n : Nat) : bytesBE n 0 = List.replicate n 0 := by
  induction n with
  | zero => rfl
  | succ n ih =>
    simp only [bytesBE, Nat.zero_div, ih, Nat.zero_mod]
    rw [← List.replicate_succ']

theorem bytesBE_isBytes (n v : Nat) (h : v < 256 ^ n) : isBytes (bytesBE n v) := by
  induction n generalizing v with
  | zero => intro b hb; simp [bytesBE] at hb
  | succ n ih =>
    intro b hb
    simp only [bytesBE, List.mem_append, List.mem_singleton] at hb
    rcases hb with hb | hb
    · exact ih (v / 256) (Nat.div_lt_of_lt_mul (by rw [pow_succ] at h; omega)) b hb
    · subst hb; exact Nat.mod_lt _ (by omega)

theorem int_from_bytes_lt (l : List Nat) (h : isBytes l) :
    int_from_bytes l < 256 ^ l.length := by
  induction l with
  | nil => simp [int_from_bytes]
  | cons b rest ih =>
    have hb : b < 256 := h b (List.mem_cons_self ..)
    have hr : int_from_bytes rest < 256 ^ rest.length :=
      ih (fun c hc => h c (List.mem_cons_of_mem _ hc))
    simp only [int_from_bytes, List.length_cons, pow_succ]
    calc b * 256 ^ rest.length + int_from_bytes rest
        < b * 256 ^ rest.length + 256 ^ rest.length := by omega
      _ = (b + 1) * 256 ^ rest.length := by ring
      _ ≤ 256 ^ rest.length * 256 := by
          rw [Nat.mul_comm (256 ^ rest.length) 256]
          exact Nat.mul_le_mul_right _ (by omega)

theorem bytesBE_cons (m z w : Nat) (hz : z < 256) (hw : w < 256 ^ m) :
    bytesBE (m + 1) (z * 256 ^ m + w) = z :: bytesBE m w := by
  induction m generalizing w with
  | zero =>
    have hw0 : w = 0 := by omega
    subst hw0
    simp [bytesBE, Nat.mod_eq_of_lt hz, Nat.div_eq_of_lt hz]
  | succ m ih =>
    have hrw : z * 256 ^ (m + 1) + w = 256 * (z * 256 ^ m) + w := by ring
    have hdiv : (z * 256 ^ (m + 1) + w) / 256 = z * 256 ^ m + w / 256 := by
      rw [hrw]; exact Nat.mul_add_div (by omega) _ _
    have hmod : (z * 256 ^ (m + 1) + w) % 256 = w % 256 := by
      rw [hrw]; exact Nat.mul_add_mod ..
    have hw' : w / 256 < 256 ^ m :=
      Nat.div_lt_of_lt_mul (by rw [pow_succ] at hw; omega)
    show bytesBE (m + 1) ((z * 256 ^ (m + 1) + w) / 256) ++
        [(z * 256 ^ (m + 1) + w) % 256] = _
    rw [hdiv, hmod, ih (w / 256) hw']
    rfl

theorem bytesBE_int_from_bytes (l : List Nat) (h : isBytes l) :
    bytesBE l.length (int_from_bytes l) = l := by
  induction l with
  | nil => rfl
  | cons b rest ih =>
    have hb : b < 256 := h b (List.mem_cons_self ..)
    have hrest : isBytes rest := fun c hc => h c (List.mem_cons_of_mem _ hc)
    show bytesBE (rest.length + 1) (b * 256 ^ rest.length + int_from_bytes rest) = _
    rw [bytesBE_cons _ _ _ hb (int_from_bytes_lt rest hrest), ih hrest]

theorem testBit_mul_pow_add_lt (x u k i : Nat) (hik : i < k) :
    (x * 2 ^ k + u).testBit i = u.testBit i := by
  have hpow : (2 : Nat) ^ k = 2 ^ i * (2 * 2 ^ (k - i - 1)) := by
    rw [← pow_succ' 2 (k - i - 1), ← pow_add]
    congr 1
    omega
  have hdm : (x * 2 ^ k + u) / 2 ^ i % 2 = u / 2 ^ i % 2 := by
    have hx : x * 2 ^ k + u = 2 ^ i * (x * (2 * 2 ^ (k - i - 1))) + u := by
      rw [hpow]; ring
    rw [hx, Nat.mul_add_div (Nat.two_pow_pos i)]
    have hx2 : x * (2 * 2 ^ (k - i - 1)) + u / 2 ^ i
        = 2 * (x * 2 ^ (k - i - 1)) + u / 2 ^ i := by ring
    rw [hx2, Nat.mul_add_mod]
  rw [Nat.testBit_to_div_mod, Nat.testBit_to_div_mod, hdm]

theorem testBit_mul_pow_add_ge (x u k i : Nat) (hu : u < 2 ^ k) (hik : k ≤ i) :
    (x * 2 ^ k + u).testBit i = x.testBit (i - k) := by
  have hpow : (2 : Nat) ^ i = 2 ^ k * 2 ^ (i - k) := by
    rw [← pow_add]
    congr 1
    omega
  have h1 : (x * 2 ^ k + u) / 2 ^ k = x := by
    have hc : x * 2 ^ k + u = 2 ^ k * x + u := by ring
    rw [hc, Nat.mul_add_div (Nat.two_pow_pos k), Nat.div_eq_of_lt hu]
    omega
  have hdm : (x * 2 ^ k + u) / 2 ^ i = x / 2 ^ (i - k) := by
    rw [hpow, ← Nat.div_div_eq_div_mul, h1]
  rw [Nat.testBit_to_div_mod, Nat.testBit_to_div_mod, hdm]

theorem xor_mul_pow_add (k x y u v : Nat) (hu : u < 2 ^ k) (hv : v < 2 ^ k) :
    (x * 2 ^ k + u) ^^^ (y * 2 ^ k + v) = (x ^^^ y) * 2 ^ k + (u ^^^ v) := by
  apply Nat.eq_of_testBit_eq
  intro i
  rcases Nat.lt_or_ge i k with hik | hik
  · rw [Nat.testBit_xor, testBit_mul_pow_add_lt _ _ _ _ hik,
      testBit_mul_pow_add_lt _ _ _ _ hik, testBit_mul_pow_add_lt _ _ _ _ hik,
      Nat.testBit_xor]
  · rw [Nat.testBit_xor, testBit_mul_pow_add_ge _ _ _ _ hu hik,
      testBit_mul_pow_add_ge _ _ _ _ hv hik,
      testBit_mul_pow_add_ge _ _ _ _ (Nat.xor_lt_two_pow hu hv) hik,
      Nat.testBit_xor]

theorem pow256_eq_pow2 (l : Nat) : (256 : Nat) ^ l = 2 ^ (8 * l) := by
  rw [pow_mul]
  norm_num

theorem int_from_bytes_xor (a b : List Nat) (ha : isBytes a) (hb : isBytes b)
    (hlen : a.length = b.length) :
    int_from_bytes a ^^^ int_from_bytes b
      = int_from_bytes (List.zipWith (fun x y => x ^^^ y) a b) := by
  induction a generalizing b with
  | nil =>
    cases b with
    | nil => rfl
    | cons y b' => simp at hlen
  | cons x a' ih =>
    cases b with
    | nil => simp at hlen
    | cons y b' =>
      have hx : x < 256 := ha x (List.mem_cons_self ..)
      have hy : y < 256 := hb y (List.mem_cons_self ..)
      have ha' : isBytes a' := fun c hc => ha c (List.mem_cons_of_mem _ hc)
      have hb' : isBytes b' := fun c hc => hb c (List.mem_cons_of_mem _ hc)
      have hlen' : a'.length = b'.length := by simpa using hlen
      have hA : int_from_bytes a' < 2 ^ (8 * a'.length) := by
        rw [← pow256_eq_pow2]; exact int_from_bytes_lt a' ha'
      have hB : int_from_bytes b' < 2 ^ (8 * a'.length) := by
        rw [← pow256_eq_pow2, hlen']; exact int_from_bytes_lt b' hb'
      simp only [int_from_bytes, List.zipWith_cons_cons, List.length_zipWith,
        ← hlen', Nat.min_self]
      rw [pow256_eq_pow2, xor_mul_pow_add _ _ _ _ _ hA hB, ih b' ha' hb' hlen']

theorem isBytes_zipWith_xor (a b : List Nat) (ha : isBytes a) (hb : isBytes b) :
    isBytes (List.zipWith (fun x y => x ^^^ y) a b) := by
  induction a generalizing b with
  | nil => intro c hc; simp at hc
  | cons x a' ih =>
    cases b with
    | nil => intro c hc; simp at hc
    | cons y b' =>
      intro c hc
      simp only [List.zipWith_cons_cons, List.mem_cons] at hc
      rcases hc with rfl | hc
      · have hx : x < 2 ^ 8 := ha x (List.mem_cons_self ..)
        have hy : y < 2 ^ 8 := hb y (List.mem_cons_self ..)
        exact Nat.xor_lt_two_pow hx hy
      · exact ih b' (fun c hc => ha c (List.mem_cons_of_mem _ hc))
          (fun c hc => hb c (List.mem_cons_of_mem _ hc)) c hc

theorem int_to_bytes_go_congr (f1 : Nat) : ∀ f2 v : Nat, v ≤ f1 → v ≤ f2 →
    int_to_bytes_go f1 v = int_to_bytes_go f2 v := by
  induction f1 with
  | zero =>
    intro f2 v h1 _
    have hv : v = 0 := by omega
    subst hv
    cases f2 with
    | zero => rfl
    | succ f2 => simp [int_to_bytes_go]
  | succ f1 ih =>
    intro f2 v h1 h2
    by_cases hv : v < 256
    · cases f2 with
      | zero =>
        have hv0 : v = 0 := by omega
        subst hv0
        simp [int_to_bytes_go]
      | succ f2 => simp [int_to_bytes_go, hv]
    · have hvpos : 256 ≤ v := by omega
      cases f2 with
      | zero => omega
      | succ f2 =>
        show (if v < 256 then [v]
            else int_to_bytes_go f1 (v / 256) ++ [v % 256])
          = (if v < 256 then [v]
            else int_to_bytes_go f2 (v / 256) ++ [v % 256])
        rw [if_neg hv, if_neg hv]
        have hd : v / 256 ≤ f1 := by
          have := Nat.div_lt_self (by omega : 0 < v) (by omega : 1 < 256)
          omega
        have hd2 : v / 256 ≤ f2 := by
          have := Nat.div_lt_self (by omega : 0 < v) (by omega : 1 < 256)
          omega
        rw [ih f2 (v / 256) hd hd2]

theorem int_to_bytes_eq (v : Nat) :
    int_to_bytes v
      = if v < 256 then [v] else int_to_bytes (v / 256) ++ [v % 256] := by
  by_cases hv : v < 256
  · rw [if_pos hv]
    show int_to_bytes_go v v = [v]
    cases v with
    | zero => rfl
    | succ w => simp [int_to_bytes_go, hv]
  · rw [if_neg hv]
    show int_to_bytes_go v v = int_to_bytes_go (v / 256) (v / 256) ++ [v % 256]
    cases v with
    | zero => omega
    | succ w =>
      show (if w + 1 < 256 then [w + 1]
          else int_to_bytes_go w ((w + 1) / 256) ++ [(w + 1) % 256]) = _
      rw [if_neg hv]
      congr 1
      apply int_to_bytes_go_congr
      · have := Nat.div_lt_self (show 0 < w + 1 by omega)
          (show 1 < 256 by omega)
        omega
      · exact Nat.le_refl _

theorem int_to_bytes_fill (n v : Nat) (hn : 1 ≤ n) (hv : v < 256 ^ n) :
    List.replicate (n - (int_to_bytes v).length) 0 ++ int_to_bytes v
      = bytesBE n v := by
  induction n generalizing v with
  | zero => omega
  | succ n ih =>
    rcases Nat.eq_zero_or_pos n with hn0 | hnpos
    · subst hn0
      have hv' : v < 256 := by simpa using hv
      rw [int_to_bytes_eq, if_pos hv']
      simp [bytesBE, Nat.mod_eq_of_lt hv', Nat.div_eq_of_lt hv']
    · rcases Nat.lt_or_ge v (256 ^ n) with hvn | hvn
      · have hih := ih v hnpos hvn
        have hL : (int_to_bytes v).length ≤ n := by
          have hlen := congrArg List.length hih
          simp only [List.length_append, List.length_replicate,
            bytesBE_length] at hlen
          omega
        have hbe : bytesBE (n + 1) v = 0 :: bytesBE n v := by
          have h0 : v = 0 * 256 ^ n + v := by ring
          conv_lhs => rw [h0]
          exact bytesBE_cons n 0 v (by omega) hvn
        rw [hbe, ← hih,
          show n + 1 - (int_to_bytes v).length
            = (n - (int_to_bytes v).length) + 1 by omega,
          List.replicate_succ]
        simp
      · have hv256 : ¬ v < 256 := by
          have : (256 : Nat) ≤ 256 ^ n := le_self_pow₀ (by omega) (by omega)
          omega
        rw [int_to_bytes_eq v, if_neg hv256]
        have hdivlt : v / 256 < 256 ^ n := by
          apply Nat.div_lt_of_lt_mul
          rw [← pow_succ']
          exact hv
        have hih := ih (v / 256) hnpos hdivlt
        have harith : n + 1 - ((int_to_bytes (v / 256)).length + 1)
            = n - (int_to_bytes (v / 256)).length := by omega
        simp only [List.length_append, List.length_singleton]
        rw [harith, ← List.append_assoc, hih]
        rfl

theorem int_to_bytes_length_le (n v : Nat) (hn : 1 ≤ n) (hv : v < 256 ^ n) :
    (int_to_bytes v).length ≤ n := by
  have hlen := congrArg List.length (int_to_bytes_fill n v hn hv)
  simp only [List.length_append, List.length_replicate, bytesBE_length] at hlen
  omega

theorem fill_width_int_to_bytes (n v : Nat) (hn : 1 ≤ n) (hv : v < 256 ^ n) :
    fill_width (int_to_bytes v) n = bytesBE n v :=
  int_to_bytes_fill n v hn hv

theorem xor_repad_eq_zipWith (a b : List Nat) (ha : isBytes a) (hb : isBytes b)
    (hlen : a.length = b.length) (hpos : 1 ≤ a.length) :
    fill_width (int_to_bytes (int_from_bytes a ^^^ int_from_bytes b)) a.length
      = List.zipWith (fun x y => x ^^^ y) a b := by
  have hx : int_from_bytes a ^^^ int_from_bytes b < 256 ^ a.length := by
    rw [pow256_eq_pow2]
    refine Nat.xor_lt_two_pow ?_ ?_
    · rw [← pow256_eq_pow2]; exact int_from_bytes_lt a ha
    · rw [← pow256_eq_pow2, hlen]; exact int_from_bytes_lt b hb
  rw [fill_width_int_to_bytes _ _ hpos hx, int_from_bytes_xor a b ha hb hlen]
  have hzlen : (List.zipWith (fun x y => x ^^^ y) a b).length = a.length := by
    simp [List.length_zipWith]
    omega
  calc bytesBE a.length (int_from_bytes (List.zipWith (fun x y => x ^^^ y) a b))
      = bytesBE (List.zipWith (fun x y => x ^^^ y) a b).length
          (int_from_bytes (List.zipWith (fun x y => x ^^^ y) a b)) := by
        rw [hzlen]
    _ = List.zipWith (fun x y => x ^^^ y) a b :=
        bytesBE_int_from_bytes _ (isBytes_zipWith_xor a b ha hb)

theorem pad_xor_eq_zipWith (a b : List Nat) (ha : isBytes a) (hb : isBytes b)
    (hlen : a.length = b.length) (hpos : 1 ≤ a.length) :
    (if (int_to_bytes (int_from_bytes a ^^^ int_from_bytes b)).length < a.length
      then List.replicate
          (a.length - (int_to_bytes (int_from_bytes a ^^^ int_from_bytes b)).length) 0
        ++ int_to_bytes (int_from_bytes a ^^^ int_from_bytes b)
      else int_to_bytes (int_from_bytes a ^^^ int_from_bytes b))
      = List.zipWith (fun x y => x ^^^ y) a b := by
  have hfw := xor_repad_eq_zipWith a b ha hb hlen hpos
  by_cases hlt :
    (int_to_bytes (int_from_bytes a ^^^ int_from_bytes b)).length < a.length
  · rw [if_pos hlt]
    exact hfw
  · rw [if_neg hlt]
    rw [← hfw]
    simp only [fill_width, Nat.sub_eq_zero_of_le (Nat.le_of_not_lt hlt),
      List.replicate_zero, List.nil_append]

/-! ## Lemmas: MGF1 -/

theorem hashLength_pos (name : HashName) : 0 < hashLength name := by
  cases name <;> simp [hashLength]

theorem hashLength_ge (name : HashName) : 20 ≤ hashLength name := by
  cases name <;> simp [hashLength]

theorem foldl_append_eq_flatten {β : Type} (f : β → List Nat) (l : List β)
    (acc : List Nat) :
    l.foldl (fun out c => out ++ f c) acc = acc ++ (l.map f).flatten := by
  induction l generalizing acc with
  | nil => simp
  | cons c l ih => simp [ih]

/-- The block sequence MGF1 concatenates (hash of seed ++ counter for the
first `k` counters). -/
def mgf1_blocks (hash : HashFun) (name : HashName) (seed : List Nat)
    (k : Nat) : List Nat :=
  ((List.range k).map (fun c => hash name (seed ++ be32 c))).flatten

theorem mgf1_eq_blocks (hash : HashFun) (name : HashName) (seed : List Nat)
    (n : Nat) (hn : 1 ≤ n) :
    mgf1 hash name seed n = some ((mgf1_blocks hash name seed
      ((n + hashLength name - 1) / hashLength name)).take n) := by
  rw [mgf1, if_neg (by omega)]
  simp only [mgf1_blocks, foldl_append_eq_flatten, List.nil_append]

theorem mgf1_blocks_length (hash : HashFun) (name : HashName) (seed : List Nat)
    (k : Nat) (hlen : ∀ m, (hash name m).length = hashLength name) :
    (mgf1_blocks hash name seed k).length = k * hashLength name := by
  simp only [mgf1_blocks, List.length_flatten, List.map_map]
  have hconst : (List.length ∘ fun c => hash name (seed ++ be32 c))
      = fun _ : Nat => hashLength name := by
    funext c
    exact hlen _
  rw [hconst, List.map_const', List.sum_const_nat, List.length_range]

theorem le_ceil_mul (n h : Nat) (hh : 0 < h) : n ≤ h * ((n + h - 1) / h) := by
  have hdm := Nat.div_add_mod (n + h - 1) h
  have hmlt : (n + h - 1) % h < h := Nat.mod_lt _ hh
  omega

theorem mgf1_blocks_le (hash : HashFun) (name : HashName) (seed : List Nat)
    (n : Nat) (hlen : ∀ m, (hash name m).length = hashLength name) :
    n ≤ (mgf1_blocks hash name seed
      ((n + hashLength name - 1) / hashLength name)).length := by
  rw [mgf1_blocks_length hash name seed _ hlen, Nat.mul_comm]
  exact le_ceil_mul n (hashLength name) (hashLength_pos name)

theorem mgf1_length (hash : HashFun) (name : HashName) (seed : List Nat)
    (n : Nat) (out : List Nat) (hn : 1 ≤ n)
    (hlen : ∀ m, (hash name m).length = hashLength name)
    (h : mgf1 hash name seed n = some out) : out.length = n := by
  rw [mgf1_eq_blocks hash name seed n hn] at h
  cases h
  rw [List.length_take]
  exact Nat.min_eq_left (mgf1_blocks_le hash name seed n hlen)

theorem mgf1_isBytes (hash : HashFun) (name : HashName) (seed : List Nat)
    (n : Nat) (out : List Nat) (hn : 1 ≤ n)
    (hbytes : ∀ nm m, isBytes (hash nm m))
    (h : mgf1 hash name seed n = some out) : isBytes out := by
  rw [mgf1_eq_blocks hash name seed n hn] at h
  cases h
  intro b hb
  have hb2 := List.take_subset _ _ hb
  simp only [mgf1_blocks, List.mem_flatten, List.mem_map] at hb2
  obtain ⟨l, ⟨c, _, rfl⟩, hbl⟩ := hb2
  exact hbytes name _ b hbl

theorem mgf1_blocks_split (hash : HashFun) (name : HashName) (seed : List Nat)
    (i j : Nat) (hij : i ≤ j) :
    mgf1_blocks hash name seed j = mgf1_blocks hash name seed i ++
      (((List.range (j - i)).map (i + ·)).map
        (fun c => hash name (seed ++ be32 c))).flatten := by
  conv_lhs => rw [show j = i + (j - i) by omega]
  simp only [mgf1_blocks, List.range_add, List.map_append, List.flatten_append]

/-- C6: for every supported hash, every seed, every mask length `n ≥ 1` and
every `k > 0`, `mgf1` returns exactly `n` bytes, those bytes are the first
`n` bytes of the `mgf1` output for mask length `n + k`, and they are the
leading `n` bytes of the concatenation of `Hash(seed ++ BE32 counter)` for
`counter = 0 .. ceil(n / hash_len) - 1`. -/
theorem c6_mgf1_length_take (hash : HashFun) (name : HashName)
    (seed : List Nat) (n k : Nat) (hn : 1 ≤ n) (hk : 1 ≤ k)
    (hlen : ∀ m, (hash name m).length = hashLength name) :
    (mgf1 hash name seed n).map List.length = some n ∧
    mgf1 hash name seed n = (mgf1 hash name seed (n + k)).map (List.take n) ∧
    mgf1 hash name seed n = some
      ((((List.range ((n + hashLength name - 1) / hashLength name)).map
        (fun c => hash name (seed ++ be32 c))).flatten).take n) := by
  have h1 := mgf1_eq_blocks hash name seed n hn
  have h2 := mgf1_eq_blocks hash name seed (n + k) (by omega)
  refine ⟨?_, ?_, ?_⟩
  · rw [h1, Option.map_some']
    congr 1
    exact mgf1_length hash name seed n _ hn hlen h1
  · rw [h1, h2, Option.map_some']
    congr 1
    rw [List.take_take, Nat.min_eq_left (by omega)]
    have hij : (n + hashLength name - 1) / hashLength name
        ≤ (n + k + hashLength name - 1) / hashLength name :=
      Nat.div_le_div_right (by omega)
    rw [mgf1_blocks_split hash name seed _ _ hij,
      List.take_append_of_le_length (mgf1_blocks_le hash name seed n hlen)]
  · rw [h1]
    simp only [mgf1_blocks]

/-- Witness for C6 at a concrete hash capability, seed and lengths. -/
theorem c6_witness :
    (mgf1 zeroHash HashName.sha1 [1, 2] 5).map List.length = some 5 ∧
    mgf1 zeroHash HashName.sha1 [1, 2] 5
      = (mgf1 zeroHash HashName.sha1 [1, 2] (5 + 3)).map (List.take 5) ∧
    mgf1 zeroHash HashName.sha1 [1, 2] 5 = some
      ((((List.range ((5 + hashLength HashName.sha1 - 1)
          / hashLength HashName.sha1)).map
        (fun c => zeroHash HashName.sha1 ([1, 2] ++ be32 c))).flatten).take 5) :=
  c6_mgf1_length_take zeroHash HashName.sha1 [1, 2] 5 3 (by omega) (by omega)
    (fun _ => rfl)

/-! ## Totality of verification -/

theorem mgf1_ne_nil (hash : HashFun) (name : HashName) (seed : List Nat)
    (n : Nat) (out : List Nat) (hn : 1 ≤ n)
    (hlen : ∀ m, (hash name m).length = hashLength name)
    (h : mgf1 hash name seed n = some out) : out ≠ [] := by
  have hl := mgf1_length hash name seed n out hn hlen h
  intro hnil
  rw [hnil] at hl
  simp at hl
  omega

theorem pss_unmask_isSome (hash : HashFun) (name : HashName)
    (zero_bits mask_length : Nat) (masked_db m_prime_digest : List Nat)
    (hml : 1 ≤ mask_length)
    (hlen : ∀ m, (hash name m).length = hashLength name) :
    (pss_unmask hash name zero_bits mask_length masked_db
      m_prime_digest).isSome = true := by
  unfold pss_unmask
  have h1 := mgf1_eq_blocks hash name m_prime_digest mask_length hml
  rw [h1]
  have hne := mgf1_ne_nil hash name m_prime_digest mask_length _ hml hlen h1
  simp only [Option.some_bind]
  split
  · cases hout : (mgf1_blocks hash name m_prime_digest
        ((mask_length + hashLength name - 1) / hashLength name)).take mask_length with
    | nil => exact absurd hout hne
    | cons b t => simp [hout, ord1]
  · simp

theorem verify_core_isSome (hash : HashFun) (name : HashName)
    (salt_length em_len zero_bits hash_length : Nat)
    (message_digest masked_db m_prime_digest : List Nat)
    (hmdb : masked_db ≠ []) (hml : 1 ≤ em_len - hash_length - 1)
    (hlen : ∀ m, (hash name m).length = hashLength name) :
    (verify_core hash name salt_length em_len zero_bits hash_length
      message_digest masked_db m_prime_digest).isSome = true := by
  unfold verify_core
  cases masked_db with
  | nil => exact absurd rfl hmdb
  | cons b t =>
    simp only [ord1, Option.some_bind]
    split
    · rfl
    · have hu := pss_unmask_isSome hash name zero_bits (em_len - hash_length - 1)
        (b :: t) m_prime_digest hml hlen
      obtain ⟨db, hdb⟩ := Option.isSome_iff_exists.mp hu
      rw [hdb]
      rfl

/-- C3: for every supported hash name, salt length, key length ≥ 512,
message and arbitrary signature, `verify_pss_padding` returns an ordinary
boolean — no exception escapes (`isSome`); malformed signatures produce
`false` through the normal return path. -/
theorem c3_verify_total (hash : HashFun) (name : HashName)
    (salt_length key_length : Nat) (message signature : List Nat)
    (hk : 512 ≤ key_length)
    (hlen : ∀ m, (hash name m).length = hashLength name) :
    (verify_pss_padding hash name salt_length key_length message
      signature).isSome = true := by
  unfold verify_pss_padding
  simp only
  split
  · rfl
  split
  · rfl
  rename_i hfeas htrail
  have hml : 1 ≤ (key_length - 1 + 7) / 8 - (hash name message).length - 1 := by
    omega
  have hsig : signature ≠ [] := by
    intro hnil
    rw [hnil] at htrail
    simp at htrail
  have htk : signature.take
      ((key_length - 1 + 7) / 8 - (hash name message).length - 1) ≠ [] := by
    cases signature with
    | nil => exact absurd rfl hsig
    | cons b t =>
      cases hn : (key_length - 1 + 7) / 8 - (hash name message).length - 1 with
      | zero => omega
      | succ m => simp
  exact verify_core_isSome hash name salt_length _ _ _ _ _ _ htk hml hlen

/-- Witness for C3 at a concrete hash capability and a malformed
signature. -/
theorem c3_witness :
    (verify_pss_padding zeroHash HashName.sha1 20 512 [1] [2, 3]).isSome
      = true :=
  c3_verify_total zeroHash HashName.sha1 20 512 [1] [2, 3] (by omega)
    (fun _ => rfl)

/-- C10: with `salt_length = 0` the encoder never consumes the randomness
source — two invocations with the same arguments but arbitrary different
randomness collaborators return identical byte strings. -/
theorem c10_add_deterministic (hash : HashFun) (name : HashName)
    (key_length : Nat) (message : List Nat)
    (urandom1 urandom2 : Nat → List Nat) (hk : 512 ≤ key_length)
    (hfeas : (hash name message).length + 2 ≤ (key_length - 1 + 7) / 8) :
    add_pss_padding hash name 0 key_length message urandom1
      = add_pss_padding hash name 0 key_length message urandom2 := by
  simp [add_pss_padding]

/-- Witness for C10 at a concrete hash capability and two distinct
randomness sources. -/
theorem c10_witness :
    add_pss_padding zeroHash HashName.sha1 0 512 []
        (fun n => List.replicate n 1)
      = add_pss_padding zeroHash HashName.sha1 0 512 []
        (fun n => List.replicate n 2) :=
  c10_add_deterministic zeroHash HashName.sha1 512 [] _ _ (by omega)
    (by decide)

/-- C1 (code bug): with `salt_length = 0` the round trip fails — the
verifier rejects the encoder's own output, because `db[0-salt_length:]`
recovers the whole data block as the salt; with a positive salt length the
same pipeline round-trips to `true`. -/
theorem c1_roundtrip_fails_for_zero_salt :
    ((add_pss_padding lengthHash HashName.sha1 0 512 [] (fun _ => [])).map
      (fun em => verify_pss_padding lengthHash HashName.sha1 0 512 [] em)
      = some (some false)) ∧
    ((add_pss_padding lengthHash HashName.sha1 20 512 []
        (fun n => List.replicate n 5)).map
      (fun em => verify_pss_padding lengthHash HashName.sha1 20 512 [] em)
      = some (some true)) := by decide

/-! ## Output shape of the encoder -/

theorem exists_cons_of_length_pos {α : Type} (l : List α) (h : 0 < l.length) :
    ∃ z0 zrest, l = z0 :: zrest := by
  cases l with
  | nil => simp at h
  | cons a t => exact ⟨a, t, rfl⟩

theorem fill_width_xor_shape (a b : List Nat) (ha : isBytes a) (hb : isBytes b)
    (hab : a.length = b.length) (hpos : 1 ≤ a.length) :
    fill_width (int_to_bytes (int_from_bytes a ^^^ int_from_bytes b)) b.length
      = List.zipWith (fun x y => x ^^^ y) a b := by
  rw [← hab]
  exact xor_repad_eq_zipWith a b ha hb hab hpos

theorem add_pss_padding_shape (hash : HashFun) (name : HashName)
    (s k : Nat) (msg : List Nat) (urandom : Nat → List Nat)
    (hk : 512 ≤ k)
    (hlen : ∀ m, (hash name m).length = hashLength name)
    (hbytes : ∀ nm m, isBytes (hash nm m))
    (hsalt_len : (urandom s).length = s)
    (hsalt_bytes : isBytes (urandom s))
    (hfeas : hashLength name + s + 2 ≤ (k - 1 + 7) / 8) :
    ∃ em, add_pss_padding hash name s k msg urandom = some em ∧
      em.length = (k - 1 + 7) / 8 ∧
      em.getLast? = some 0xBC ∧
      em.headD 0 >>> (8 - (8 * ((k - 1 + 7) / 8) - (k - 1))) = 0 := by
  have hhl20 := hashLength_ge name
  have hzb7 : 8 * ((k - 1 + 7) / 8) - (k - 1) ≤ 7 := by
    have h1 : (k - 1 + 7) / 8 * 8 ≤ k - 1 + 7 := Nat.div_mul_le_self _ _
    omega
  have hslen : (if s > 0 then urandom s else []).length = s := by
    split
    · exact hsalt_len
    · simp only [List.length_nil]
      omega
  have hsbytes : isBytes (if s > 0 then urandom s else []) := by
    split
    · exact hsalt_bytes
    · intro b hb
      simp at hb
  have hdblen : (List.replicate ((k - 1 + 7) / 8 - s - hashLength name - 2) 0
      ++ [1] ++ (if s > 0 then urandom s else [])).length
      = (k - 1 + 7) / 8 - hashLength name - 1 := by
    simp only [List.length_append, List.length_replicate, List.length_cons,
      List.length_nil, hslen]
    omega
  have hdbbytes : isBytes (List.replicate ((k - 1 + 7) / 8 - s - hashLength name - 2) 0
      ++ [1] ++ (if s > 0 then urandom s else [])) := by
    intro b hb
    simp only [List.mem_append, List.mem_replicate, List.mem_singleton] at hb
    rcases hb with (⟨_, rfl⟩ | rfl) | hb
    · omega
    · omega
    · exact hsbytes b hb
  have hM1 : 1 ≤ (k - 1 + 7) / 8 - hashLength name - 1 := by omega
  have hmgf := mgf1_eq_blocks hash name
    (hash name (List.replicate 8 0 ++ hash name msg
      ++ (if s > 0 then urandom s else [])))
    ((k - 1 + 7) / 8 - hashLength name - 1) hM1
  have hmlen := mgf1_length hash name _ _ _ hM1 hlen hmgf
  have hmbytes := mgf1_isBytes hash name _ _ _ hM1 hbytes hmgf
  unfold add_pss_padding
  rw [if_neg (by omega)]
  simp only [hlen msg]
  rw [if_neg (by omega), hmgf, Option.some_bind]
  have hfw := fill_width_xor_shape
    (List.replicate ((k - 1 + 7) / 8 - s - hashLength name - 2) 0
      ++ [1] ++ (if s > 0 then urandom s else []))
    ((mgf1_blocks hash name
      (hash name (List.replicate 8 0 ++ hash name msg
        ++ (if s > 0 then urandom s else [])))
      (((k - 1 + 7) / 8 - hashLength name - 1 + hashLength name - 1)
        / hashLength name)).take ((k - 1 + 7) / 8 - hashLength name - 1))
    hdbbytes hmbytes (by rw [hdblen, hmlen]) (by omega)
  rw [hfw]
  have hzlen : (List.zipWith (fun x y => x ^^^ y)
      (List.replicate ((k - 1 + 7) / 8 - s - hashLength name - 2) 0
        ++ [1] ++ (if s > 0 then urandom s else []))
      ((mgf1_blocks hash name
        (hash name (List.replicate 8 0 ++ hash name msg
          ++ (if s > 0 then urandom s else [])))
        (((k - 1 + 7) / 8 - hashLength name - 1 + hashLength name - 1)
          / hashLength name)).take
        ((k - 1 + 7) / 8 - hashLength name - 1))).length
      = (k - 1 + 7) / 8 - hashLength name - 1 := by
    rw [List.length_zipWith, hdblen, hmlen]
    omega
  have hzbytes := isBytes_zipWith_xor _ _ hdbbytes hmbytes
  obtain ⟨z0, zrest, hzcons⟩ := exists_cons_of_length_pos _
    (show 0 < (List.zipWith (fun x y => x ^^^ y)
      (List.replicate ((k - 1 + 7) / 8 - s - hashLength name - 2) 0
        ++ [1] ++ (if s > 0 then urandom s else []))
      ((mgf1_blocks hash name
        (hash name (List.replicate 8 0 ++ hash name msg
          ++ (if s > 0 then urandom s else [])))
        (((k - 1 + 7) / 8 - hashLength name - 1 + hashLength name - 1)
          / hashLength name)).take
        ((k - 1 + 7) / 8 - hashLength name - 1))).length
      by rw [hzlen]; omega)
  rw [hzcons]
  rw [hzcons] at hzlen hzbytes
  have hz0 : z0 < 256 := hzbytes z0 (List.mem_cons_self ..)
  by_cases hzb : 8 * ((k - 1 + 7) / 8) - (k - 1) = 0
  · rw [hzb]
    rw [if_neg (show ¬ ((2 : Nat) ^ (8 - 0) - 1 ≠ 255) by norm_num)]
    rw [Option.map_some']
    refine ⟨_, rfl, ?_, ?_, ?_⟩
    · have hzr : zrest.length + 1 = (k - 1 + 7) / 8 - hashLength name - 1 := by
        simpa using hzlen
      simp only [List.length_append, List.length_cons, List.length_nil,
        List.length_singleton, hlen]
      omega
    · exact List.getLast?_concat _
    · simp only [List.cons_append, List.headD_cons]
      rw [Nat.shiftRight_eq_div_pow]
      exact Nat.div_eq_of_lt (by norm_num; omega)
  · have hmaskne : (2 : Nat) ^ (8 - (8 * ((k - 1 + 7) / 8) - (k - 1))) - 1 ≠ 255 := by
      have hple : (2 : Nat) ^ (8 - (8 * ((k - 1 + 7) / 8) - (k - 1))) ≤ 2 ^ 7 :=
        Nat.pow_le_pow_right (by omega) (by omega)
      omega
    rw [if_pos hmaskne]
    simp only [ord1, Option.map_some', List.drop_succ_cons, List.drop_zero]
    refine ⟨_, rfl, ?_, ?_, ?_⟩
    · have hzr : zrest.length + 1 = (k - 1 + 7) / 8 - hashLength name - 1 := by
        simpa using hzlen
      simp only [List.length_append, List.length_cons, List.length_nil,
        List.length_singleton, hlen]
      omega
    · exact List.getLast?_concat _
    · simp only [List.cons_append, List.headD_cons]
      rw [Nat.shiftRight_eq_div_pow]
      apply Nat.div_eq_of_lt
      calc (2 ^ (8 - (8 * ((k - 1 + 7) / 8) - (k - 1))) - 1) &&& z0
          ≤ 2 ^ (8 - (8 * ((k - 1 + 7) / 8) - (k - 1))) - 1 := Nat.and_le_left
        _ < 2 ^ (8 - (8 * ((k - 1 + 7) / 8) - (k - 1))) :=
            Nat.sub_lt (Nat.two_pow_pos _) (by omega)

/-- C4: for every supported hash, every salt length and key length in
{512, 1024, 2048, 4096} satisfying `em_len ≥ hash_len + salt_len + 2`,
and every message, the encoder output has length exactly
`em_len = ceil((key_length-1)/8)`, its last byte is 0xBC, and the top
`8*em_len - (key_length-1)` bits of its first byte are zero. -/
theorem c4_add_output_shape (hash : HashFun) (name : HashName)
    (salt_length key_length : Nat) (message : List Nat)
    (urandom : Nat → List Nat)
    (hkset : key_length = 512 ∨ key_length = 1024 ∨ key_length = 2048 ∨
      key_length = 4096)
    (hlen : ∀ m, (hash name m).length = hashLength name)
    (hbytes : ∀ nm m, isBytes (hash nm m))
    (hsalt_len : (urandom salt_length).length = salt_length)
    (hsalt_bytes : isBytes (urandom salt_length))
    (hfeas : hashLength name + salt_length + 2 ≤ (key_length - 1 + 7) / 8) :
    (add_pss_padding hash name salt_length key_length message urandom).map
        List.length = some ((key_length - 1 + 7) / 8) ∧
    (add_pss_padding hash name salt_length key_length message urandom).bind
        List.getLast? = some 0xBC ∧
    (add_pss_padding hash name salt_length key_length message urandom).map
        (fun em => em.headD 0 >>>
          (8 - (8 * ((key_length - 1 + 7) / 8) - (key_length - 1))))
      = some 0 := by
  have hk : 512 ≤ key_length := by
    rcases hkset with rfl | rfl | rfl | rfl <;> omega
  obtain ⟨em, hem, hlen2, hlast, hhead⟩ := add_pss_padding_shape hash name
    salt_length key_length message urandom hk hlen hbytes hsalt_len
    hsalt_bytes hfeas
  rw [hem]
  exact ⟨by rw [Option.map_some', hlen2], by rw [Option.some_bind, hlast],
    by rw [Option.map_some', hhead]⟩

/-- Witness for C4 at a concrete hash capability, salt and key length. -/
theorem c4_witness :
    (add_pss_padding zeroHash HashName.sha1 0 512 [3] (fun _ => [])).map
        List.length = some ((512 - 1 + 7) / 8) ∧
    (add_pss_padding zeroHash HashName.sha1 0 512 [3] (fun _ => [])).bind
        List.getLast? = some 0xBC ∧
    (add_pss_padding zeroHash HashName.sha1 0 512 [3] (fun _ => [])).map
        (fun em => em.headD 0 >>>
          (8 - (8 * ((512 - 1 + 7) / 8) - (512 - 1)))) = some 0 :=
  c4_add_output_shape zeroHash HashName.sha1 0 512 [3] (fun _ => [])
    (Or.inl rfl) (fun _ => rfl) (by intro nm m; show isBytes (List.replicate 20 0); decide) rfl (by decide)
    (by decide)

/-! ## The verifier ignores the signature length past its slices -/

theorem verify_core_true_digest (hash : HashFun) (name : HashName)
    (s el zb hl : Nat) (md mdb mpd : List Nat)
    (h : verify_core hash name s el zb hl md mdb mpd = some true) :
    ∃ x, mpd = hash name x := by
  unfold verify_core at h
  cases hmdb : ord1 mdb with
  | none =>
    rw [hmdb] at h
    exact absurd h (by simp)
  | some fb =>
    rw [hmdb, Option.some_bind] at h
    split at h
    · exact absurd h (by simp)
    · cases hu : pss_unmask hash name zb (el - hl - 1) mdb mpd with
      | none =>
        rw [hu] at h
        exact absurd h (by simp)
      | some db =>
        rw [hu, Option.map_some'] at h
        have h' := Option.some.inj h
        simp only at h'
        by_cases hA : ¬ constant_compare (db.take (el - hl - s - 2))
            (List.replicate (el - hl - s - 2) 0) = true
        · rw [if_pos hA] at h'
          exact absurd h' (by simp)
        · rw [if_neg hA] at h'
          by_cases hB : (db.drop (el - hl - s - 2)).take 1 ≠ [1]
          · rw [if_pos hB] at h'
            exact absurd h' (by simp)
          · rw [if_neg hB] at h'
            unfold constant_compare at h'
            exact ⟨_, eq_of_beq h'⟩

/-- C9: the verifier never compares the signature's total length to
`em_len`: whenever a byte string verifies `true`, appending a further
0xBC byte to it still verifies `true`, since `maskedDB` and the recovered
digest are sliced from the front and only the single last byte is
checked. -/
theorem c9_verify_extra_trailer (hash : HashFun) (name : HashName)
    (salt_length key_length : Nat) (message em : List Nat)
    (hk : 512 ≤ key_length)
    (hlen : ∀ m, (hash name m).length = hashLength name)
    (hv : verify_pss_padding hash name salt_length key_length message em
      = some true) :
    verify_pss_padding hash name salt_length key_length message (em ++ [0xBC])
      = some true := by
  unfold verify_pss_padding at hv ⊢
  simp only at hv ⊢
  by_cases hfeas : (key_length - 1 + 7) / 8
      < (hash name message).length + salt_length + 2
  · rw [if_pos hfeas] at hv
    exact absurd hv (by simp)
  rw [if_neg hfeas] at hv ⊢
  by_cases htr : em.drop (em.length - 1) ≠ [0xBC]
  · rw [if_pos htr] at hv
    exact absurd hv (by simp)
  rw [if_neg htr] at hv
  have htr2 : (em ++ [0xBC]).drop ((em ++ [0xBC]).length - 1) = [0xBC] := by
    have h0 : (em ++ [0xBC]).length - 1 = em.length + 0 := by simp
    rw [h0, List.drop_append 0]
    rfl
  rw [htr2]
  rw [if_neg (show ¬ (([0xBC] : List Nat) ≠ [0xBC]) from by simp)]
  obtain ⟨x, hx⟩ := verify_core_true_digest hash name _ _ _ _ _ _ _ hv
  have hhl20 := hashLength_ge name
  have hmpdlen : ((em.drop ((key_length - 1 + 7) / 8
        - (hash name message).length - 1)).take
      (hash name message).length).length = hashLength name := by
    rw [hx, hlen x]
  rw [List.length_take, List.length_drop] at hmpdlen
  have hmin := Nat.min_eq_left (le_of_eq ((hlen message) ▸ hmpdlen))
  have hlen_ge : (key_length - 1 + 7) / 8 - (hash name message).length - 1
      + (hash name message).length ≤ em.length := by
    rw [hlen message] at hmpdlen ⊢
    omega
  have e1 : (em ++ [0xBC]).take
      ((key_length - 1 + 7) / 8 - (hash name message).length - 1)
      = em.take ((key_length - 1 + 7) / 8 - (hash name message).length - 1) :=
    List.take_append_of_le_length (by omega)
  have e2 : ((em ++ [0xBC]).drop
        ((key_length - 1 + 7) / 8 - (hash name message).length - 1)).take
        (hash name message).length
      = (em.drop ((key_length - 1 + 7) / 8
        - (hash name message).length - 1)).take (hash name message).length := by
    rw [List.drop_append_of_le_length (by omega)]
    refine List.take_append_of_le_length ?_
    rw [List.length_drop]
    omega
  rw [e1, e2]
  exact hv

/-- Witness for C9 at a concrete verifying signature. -/
theorem c9_witness :
    verify_pss_padding zeroHash HashName.sha1 20 512 []
      ((List.replicate 22 0 ++ [1] ++ List.replicate 40 0 ++ [0xBC]) ++ [0xBC])
      = some true :=
  c9_verify_extra_trailer zeroHash HashName.sha1 20 512 []
    (List.replicate 22 0 ++ [1] ++ List.replicate 40 0 ++ [0xBC])
    (by omega) (fun _ => rfl) (by decide)

/-! ## What the verifier actually XORs against -/

/-- C2 counterexample: at key length 512 (so `zero_bits = 1`) with a hash
capability whose digests start with a set top bit, a signature that passes
the trailer-byte and leading-zero-bit checks recovers a data block that is
NOT the plain byte-wise XOR of maskedDB with the MGF1 mask — the verifier
first clears the top bit of the mask's first byte. -/
theorem c2_counterexample :
    (List.replicate 63 (0 : Nat) ++ [0xBC]).drop
        ((List.replicate 63 (0 : Nat) ++ [0xBC]).length - 1) = [0xBC] ∧
    (((List.replicate 63 (0 : Nat) ++ [0xBC]).take 43).headD 0) >>> (8 - 1)
      = 0 ∧
    (mgf1 highBitHash HashName.sha1
        (((List.replicate 63 (0 : Nat) ++ [0xBC]).drop 43).take 20) 43).map
      (fun mask => pss_unmask highBitHash HashName.sha1 1 43
          ((List.replicate 63 (0 : Nat) ++ [0xBC]).take 43)
          (((List.replicate 63 (0 : Nat) ++ [0xBC]).drop 43).take 20)
        == some (List.zipWith (fun a b => a ^^^ b)
          ((List.replicate 63 (0 : Nat) ++ [0xBC]).take 43) mask))
      = some false := by decide

/-- C2 (amended): for every signature that passes the trailer-byte and
leading-zero-bit checks, the recovered data block equals the byte-wise XOR
of maskedDB with the MGF1 mask whose first byte has had its top
`zero_bits` bits cleared (for `zero_bits = 0` this is the plain mask). -/
theorem c2_unmask_clear_top (hash : HashFun) (name : HashName)
    (salt_length key_length : Nat) (signature mask : List Nat)
    (hk : 512 ≤ key_length)
    (hlen : ∀ m, (hash name m).length = hashLength name)
    (hbytes : ∀ nm m, isBytes (hash nm m))
    (hsig : isBytes signature)
    (hfeas : hashLength name + salt_length + 2 ≤ (key_length - 1 + 7) / 8)
    (hsiglen : (key_length - 1 + 7) / 8 - hashLength name - 1
      ≤ signature.length)
    (htrailer : signature.drop (signature.length - 1) = [0xBC])
    (hzerobit : ((signature.take ((key_length - 1 + 7) / 8
        - hashLength name - 1)).headD 0)
      >>> (8 - (8 * ((key_length - 1 + 7) / 8) - (key_length - 1))) = 0)
    (hmask : mgf1 hash name ((signature.drop ((key_length - 1 + 7) / 8
        - hashLength name - 1)).take (hashLength name))
      ((key_length - 1 + 7) / 8 - hashLength name - 1) = some mask) :
    pss_unmask hash name (8 * ((key_length - 1 + 7) / 8) - (key_length - 1))
      ((key_length - 1 + 7) / 8 - hashLength name - 1)
      (signature.take ((key_length - 1 + 7) / 8 - hashLength name - 1))
      ((signature.drop ((key_length - 1 + 7) / 8 - hashLength name - 1)).take
        (hashLength name))
      = some (List.zipWith (fun x y => x ^^^ y)
        (signature.take ((key_length - 1 + 7) / 8 - hashLength name - 1))
        (clear_top_bits (8 * ((key_length - 1 + 7) / 8) - (key_length - 1))
          mask)) := by
  have hhl20 := hashLength_ge name
  have hM1 : 1 ≤ (key_length - 1 + 7) / 8 - hashLength name - 1 := by omega
  have hzb7 : 8 * ((key_length - 1 + 7) / 8) - (key_length - 1) ≤ 7 := by
    have h1 : (key_length - 1 + 7) / 8 * 8 ≤ key_length - 1 + 7 :=
      Nat.div_mul_le_self _ _
    omega
  have hmlen := mgf1_length hash name _ _ _ hM1 hlen hmask
  have hmbytes := mgf1_isBytes hash name _ _ _ hM1 hbytes hmask
  have hmdblen : (signature.take ((key_length - 1 + 7) / 8
      - hashLength name - 1)).length
      = (key_length - 1 + 7) / 8 - hashLength name - 1 := by
    rw [List.length_take]
    omega
  have hmdbbytes : isBytes (signature.take ((key_length - 1 + 7) / 8
      - hashLength name - 1)) :=
    fun b hb => hsig b (List.take_subset _ _ hb)
  obtain ⟨m0, mrest, hmcons⟩ := exists_cons_of_length_pos mask
    (by rw [hmlen]; omega)
  have hm0 : m0 < 256 := (hmcons ▸ hmbytes) m0 (List.mem_cons_self ..)
  have hmrest : isBytes mrest :=
    fun c hc => (hmcons ▸ hmbytes) c (List.mem_cons_of_mem _ hc)
  unfold pss_unmask
  rw [hmask, Option.some_bind]
  simp only
  by_cases hzb : 8 * ((key_length - 1 + 7) / 8) - (key_length - 1) = 0
  · rw [hzb]
    rw [if_neg (show ¬ ((2 : Nat) ^ (8 - 0) - 1 ≠ 255) from by norm_num)]
    rw [Option.map_some']
    have hct : clear_top_bits 0 mask = mask := by
      rw [hmcons]
      simp only [clear_top_bits]
      rw [Nat.mod_eq_of_lt (show m0 < 2 ^ (8 - 0) from by norm_num; omega)]
    rw [hct]
    rw [pad_xor_eq_zipWith
      (signature.take ((key_length - 1 + 7) / 8 - hashLength name - 1)) mask
      hmdbbytes hmbytes (by rw [hmdblen, hmlen]) (by rw [hmdblen]; omega)]
  · have hne : (2 : Nat) ^ (8 - (8 * ((key_length - 1 + 7) / 8)
        - (key_length - 1))) - 1 ≠ 255 := by
      have hple : (2 : Nat) ^ (8 - (8 * ((key_length - 1 + 7) / 8)
          - (key_length - 1))) ≤ 2 ^ 7 :=
        Nat.pow_le_pow_right (by omega) (by omega)
      omega
    rw [if_pos hne, hmcons]
    simp only [ord1, Option.map_some', List.drop_succ_cons, List.drop_zero]
    have hand : (2 ^ (8 - (8 * ((key_length - 1 + 7) / 8)
        - (key_length - 1))) - 1) &&& m0
        = m0 % 2 ^ (8 - (8 * ((key_length - 1 + 7) / 8)
          - (key_length - 1))) := by
      rw [Nat.and_comm]
      exact Nat.and_pow_two_sub_one_eq_mod m0 _
    have hdbbytes2 : isBytes ((2 ^ (8 - (8 * ((key_length - 1 + 7) / 8)
        - (key_length - 1))) - 1 &&& m0) :: mrest) := by
      intro c hc
      rcases List.mem_cons.mp hc with rfl | hc
      · calc 2 ^ (8 - (8 * ((key_length - 1 + 7) / 8)
            - (key_length - 1))) - 1 &&& m0
            ≤ m0 := Nat.and_le_right
          _ < 256 := hm0
      · exact hmrest c hc
    have hdblen2 : ((2 ^ (8 - (8 * ((key_length - 1 + 7) / 8)
        - (key_length - 1))) - 1 &&& m0) :: mrest).length
        = (key_length - 1 + 7) / 8 - hashLength name - 1 := by
      have := hmcons ▸ hmlen
      simpa using this
    have hpad := pad_xor_eq_zipWith
      (signature.take ((key_length - 1 + 7) / 8 - hashLength name - 1))
      ((2 ^ (8 - (8 * ((key_length - 1 + 7) / 8)
        - (key_length - 1))) - 1 &&& m0) :: mrest)
      hmdbbytes hdbbytes2 (by rw [hmdblen, hdblen2]) (by rw [hmdblen]; omega)
    rw [hpad]
    simp only [clear_top_bits, hand]

/-- Witness for C2 (amended) at a concrete signature and hash. -/
theorem c2_witness :
    pss_unmask zeroHash HashName.sha1 1 43
      ((List.replicate 63 (0 : Nat) ++ [0xBC]).take 43)
      (((List.replicate 63 (0 : Nat) ++ [0xBC]).drop 43).take 20)
      = some (List.zipWith (fun x y => x ^^^ y)
        ((List.replicate 63 (0 : Nat) ++ [0xBC]).take 43)
        (clear_top_bits 1 (List.replicate 43 0))) :=
  c2_unmask_clear_top zeroHash HashName.sha1 20 512
    (List.replicate 63 (0 : Nat) ++ [0xBC]) (List.replicate 43 0)
    (by omega) (fun _ => rfl)
    (by intro nm m; show isBytes (List.replicate 20 0); decide)
    (by decide) (by decide) (by decide) (by decide) (by decide) (by decide)

/-! ## The record scanner: cursor discipline and first-match semantics -/

theorem find_handshake_message_go_congr (buf : List Nat) (sub_type : Nat) :
    ∀ f1 f2 p : Nat, buf.length ≤ p + f1 → buf.length ≤ p + f2 →
    find_handshake_message_go buf sub_type f1 p
      = find_handshake_message_go buf sub_type f2 p := by
  intro f1
  induction f1 with
  | zero =>
    intro f2 p h1 _
    cases f2 with
    | zero => rfl
    | succ f2 =>
      show none = if p < buf.length then _ else none
      rw [if_neg (by omega)]
  | succ f1 ih =>
    intro f2 p h1 h2
    by_cases hp : p < buf.length
    · cases f2 with
      | zero => omega
      | succ f2 =>
        show (if p < buf.length then _ else none)
          = (if p < buf.length then _ else none)
        rw [if_pos hp, if_pos hp]
        simp only
        split
        · rfl
        · exact ih f2 _ (by omega) (by omega)
    · cases f2 with
      | zero =>
        show find_handshake_message_go buf sub_type (f1 + 1) p = none
        show (if p < buf.length then _ else none) = none
        rw [if_neg hp]
      | succ f2 =>
        show (if p < buf.length then _ else none)
          = (if p < buf.length then _ else none)
        rw [if_neg hp, if_neg hp]

theorem find_handshake_message_eq (buf : List Nat) (sub_type p : Nat) :
    find_handshake_message buf sub_type p
      = if p < buf.length then
          (if ((buf.drop p).take 5).take 1 = [0x16] ∧
              (buf.drop (p + 5)).take 1 = [sub_type]
           then some ((buf.drop (p + 5)).take
             (int_from_bytes (((buf.drop p).take 5).drop 3)))
           else find_handshake_message buf sub_type
             (p + 5 + int_from_bytes (((buf.drop p).take 5).drop 3)))
        else none := by
  by_cases hp : p < buf.length
  · rw [if_pos hp]
    unfold find_handshake_message
    have hf : buf.length + 1 - p = (buf.length - p) + 1 := by omega
    rw [hf]
    show (if p < buf.length then _ else none) = _
    rw [if_pos hp]
    simp only
    split
    · rfl
    · exact find_handshake_message_go_congr buf sub_type _ _ _
        (by omega) (by omega)
  · rw [if_neg hp]
    unfold find_handshake_message
    cases hf : buf.length + 1 - p with
    | zero => rfl
    | succ f =>
      show (if p < buf.length then _ else none) = none
      rw [if_neg hp]

theorem record_starts_go_congr (buf : List Nat) :
    ∀ f1 f2 p : Nat, buf.length ≤ p + f1 → buf.length ≤ p + f2 →
    record_starts_go buf f1 p = record_starts_go buf f2 p := by
  intro f1
  induction f1 with
  | zero =>
    intro f2 p h1 _
    cases f2 with
    | zero => rfl
    | succ f2 =>
      show ([] : List Nat) = if p < buf.length then _ else []
      rw [if_neg (by omega)]
  | succ f1 ih =>
    intro f2 p h1 h2
    by_cases hp : p < buf.length
    · cases f2 with
      | zero => omega
      | succ f2 =>
        show (if p < buf.length then _ else [])
          = (if p < buf.length then _ else [])
        rw [if_pos hp, if_pos hp]
        rw [ih f2 _ (by
          have : 5 ≤ 5 + record_length_at buf p := by omega
          omega) (by omega)]
    · cases f2 with
      | zero =>
        show (if p < buf.length then _ else []) = ([] : List Nat)
        rw [if_neg hp]
      | succ f2 =>
        show (if p < buf.length then _ else [])
          = (if p < buf.length then _ else [])
        rw [if_neg hp, if_neg hp]

theorem record_starts_eq (buf : List Nat) (p : Nat) :
    record_starts buf p
      = if p < buf.length then
          p :: record_starts buf (p + 5 + record_length_at buf p)
        else [] := by
  by_cases hp : p < buf.length
  · rw [if_pos hp]
    unfold record_starts
    have hf : buf.length + 1 - p = (buf.length - p) + 1 := by omega
    rw [hf]
    show (if p < buf.length then _ else []) = _
    rw [if_pos hp]
    show p :: record_starts_go buf (buf.length - p)
        (p + 5 + record_length_at buf p)
      = p :: record_starts_go buf
        (buf.length + 1 - (p + 5 + record_length_at buf p))
        (p + 5 + record_length_at buf p)
    rw [record_starts_go_congr buf (buf.length - p)
      (buf.length + 1 - (p + 5 + record_length_at buf p))
      (p + 5 + record_length_at buf p) (by omega) (by omega)]
  · rw [if_neg hp]
    unfold record_starts
    cases hf : buf.length + 1 - p with
    | zero => rfl
    | succ f =>
      show (if p < buf.length then _ else []) = ([] : List Nat)
      rw [if_neg hp]

theorem record_matches_iff (buf : List Nat) (sub_type p : Nat) :
    record_matches buf sub_type p = true
      ↔ (((buf.drop p).take 5).take 1 = [0x16] ∧
        (buf.drop (p + 5)).take 1 = [sub_type]) := by
  simp [record_matches]

theorem find_handshake_message_eq_find? (buf : List Nat) (sub_type : Nat) :
    ∀ fuel p, buf.length - p ≤ fuel →
    find_handshake_message buf sub_type p
      = ((record_starts buf p).find? (record_matches buf sub_type)).map
        (fun q => (buf.drop (q + 5)).take (record_length_at buf q)) := by
  intro fuel
  induction fuel with
  | zero =>
    intro p hp
    rw [find_handshake_message_eq, record_starts_eq,
      if_neg (by omega), if_neg (by omega)]
    rfl
  | succ fuel ih =>
    intro p hp
    by_cases hlt : p < buf.length
    · rw [find_handshake_message_eq, record_starts_eq, if_pos hlt, if_pos hlt]
      by_cases hm : record_matches buf sub_type p = true
      · rw [List.find?_cons_of_pos _ hm, if_pos ((record_matches_iff _ _ _).mp hm)]
        rfl
      · rw [List.find?_cons_of_neg _ (by simpa using hm),
          if_neg (fun hc => hm ((record_matches_iff _ _ _).mpr hc))]
        exact ih _ (by
          have : 5 ≤ 5 + record_length_at buf p := by omega
          omega)
    · rw [find_handshake_message_eq, record_starts_eq,
        if_neg hlt, if_neg hlt]
      rfl

theorem record_starts_chain (buf : List Nat) :
    ∀ fuel p, buf.length - p ≤ fuel →
    List.Chain' (fun a b => b = a + 5 + record_length_at buf a)
      (record_starts buf p) := by
  intro fuel
  induction fuel with
  | zero =>
    intro p hp
    rw [record_starts_eq, if_neg (by omega)]
    exact List.chain'_nil
  | succ fuel ih =>
    intro p hp
    by_cases hlt : p < buf.length
    · rw [record_starts_eq, if_pos hlt]
      have htail := ih (p + 5 + record_length_at buf p) (by omega)
      cases hc : record_starts buf (p + 5 + record_length_at buf p) with
      | nil => exact List.chain'_singleton p
      | cons q t =>
        have hq : p + 5 + record_length_at buf p = q := by
          rw [record_starts_eq] at hc
          split at hc
          · exact (List.cons.inj hc).1
          · exact absurd hc (by simp)
        rw [List.chain'_cons]
        rw [hc] at htail
        exact ⟨hq.symm, htail⟩
    · rw [record_starts_eq, if_neg hlt]
      exact List.chain'_nil

theorem record_starts_sorted (buf : List Nat) (p : Nat) :
    (record_starts buf p).Pairwise (· < ·) := by
  have hchain := record_starts_chain buf (buf.length - p) p (Nat.le_refl _)
  have hlt : List.Chain' (· < ·) (record_starts buf p) :=
    List.Chain'.imp (fun a b h => by omega) hchain
  exact List.chain'_iff_pairwise.mp hlt

theorem find?_none_of_all_false {α : Type} (l : List α) (f : α → Bool)
    (h : ∀ x ∈ l, f x = false) : l.find? f = none :=
  List.find?_eq_none.mpr (fun x hx => by simp [h x hx])

/-- C7: the record scanners of `extract_chain` and `get_dh_params_length`
advance the cursor by exactly `5 + record_length` past every non-matching
record, never re-read earlier bytes (the visited cursor positions are
strictly increasing), stop at the first matching record (`find?`
semantics over the cursor sequence), and return the not-found result
(empty list / `none`) when no record matches. -/
theorem c7_record_scan {α : Type} (load : List Nat → α) (buf : List Nat) :
    (∀ p, find_handshake_message buf 0x0b p
      = ((record_starts buf p).find? (record_matches buf 0x0b)).map
        (fun q => (buf.drop (q + 5)).take (record_length_at buf q))) ∧
    (∀ p, find_handshake_message buf 0x0c p
      = ((record_starts buf p).find? (record_matches buf 0x0c)).map
        (fun q => (buf.drop (q + 5)).take (record_length_at buf q))) ∧
    (∀ p, List.Chain' (fun a b => b = a + 5 + record_length_at buf a)
      (record_starts buf p)) ∧
    (∀ p, (record_starts buf p).Pairwise (· < ·)) ∧
    ((∀ q ∈ record_starts buf 0, record_matches buf 0x0b q = false) →
      extract_chain load buf = []) ∧
    ((∀ q ∈ record_starts buf 0, record_matches buf 0x0c q = false) →
      get_dh_params_length buf = none) := by
  refine ⟨fun p => find_handshake_message_eq_find? buf 0x0b (buf.length - p) p
      (Nat.le_refl _),
    fun p => find_handshake_message_eq_find? buf 0x0c (buf.length - p) p
      (Nat.le_refl _),
    fun p => record_starts_chain buf (buf.length - p) p (Nat.le_refl _),
    fun p => record_starts_sorted buf p, ?_, ?_⟩
  · intro h
    unfold extract_chain
    rw [find_handshake_message_eq_find? buf 0x0b buf.length 0 (by omega),
      find?_none_of_all_false _ _ h]
    rfl
  · intro h
    unfold get_dh_params_length
    rw [find_handshake_message_eq_find? buf 0x0c buf.length 0 (by omega),
      find?_none_of_all_false _ _ h]
    rfl

/-- Witness for C7: a buffer holding an alert record and a non-matching
handshake record yields the not-found results. -/
theorem c7_witness :
    extract_chain (fun bs => bs.length) noMatchBuf = [] ∧
    get_dh_params_length noMatchBuf = none :=
  ⟨(c7_record_scan (fun bs => bs.length) noMatchBuf).2.2.2.2.1 (by decide),
   (c7_record_scan (fun bs => bs.length) noMatchBuf).2.2.2.2.2 (by decide)⟩

/-- C8: `get_dh_params_length` returns, for the first ServerKeyExchange
message found, 8 times the big-endian value of the two bytes after the
4-byte message header; the scenario with p-length field 0x0100 yields
2048; with no ServerKeyExchange present it returns `none`. -/
theorem c8_get_dh_params (buf : List Nat) :
    (get_dh_params_length buf
      = ((record_starts buf 0).find? (record_matches buf 0x0c)).map
        (fun q => int_from_bytes ((((buf.drop (q + 5)).take
          (record_length_at buf q)).drop 4).take 2) * 8)) ∧
    get_dh_params_length dhDemoBuf = some 2048 ∧
    ((∀ q ∈ record_starts buf 0, record_matches buf 0x0c q = false) →
      get_dh_params_length buf = none) := by
  refine ⟨?_, by decide, ?_⟩
  · unfold get_dh_params_length
    rw [find_handshake_message_eq_find? buf 0x0c buf.length 0 (by omega)]
    cases hf : (record_starts buf 0).find? (record_matches buf 0x0c) with
    | none => rfl
    | some q => rfl
  · intro h
    unfold get_dh_params_length
    rw [find_handshake_message_eq_find? buf 0x0c buf.length 0 (by omega),
      find?_none_of_all_false _ _ h]
    rfl

/-- Witness for C8: a buffer with no ServerKeyExchange record. -/
theorem c8_witness :
    get_dh_params_length [0x16, 3, 3, 0, 1, 0x0b] = none :=
  (c8_get_dh_params [0x16, 3, 3, 0, 1, 0x0b]).2.2 (by decide)

/-! ## Session-id reconciliation -/

theorem server_hello_info_ssid {α : Type} (csmap : List Nat → Option α)
    (sb : List Nat) (p : Option TlsProtocol) (cs : Option α) (comp : Bool)
    (ssid : Option (List Nat)) (tick : Option SessionLabel)
    (h : server_hello_info csmap sb = some (p, cs, comp, ssid, tick)) :
    ssid = server_session_id_of sb := by
  unfold server_hello_info at h
  unfold server_session_id_of
  by_cases h1 : sb.take 1 = [0x16]
  · rw [if_pos h1] at h
    rw [if_pos h1]
    simp only at h ⊢
    by_cases h2 : ((sb.drop 5).take (int_from_bytes ((sb.take 5).drop 3))).take 1
        = [0x02]
    · rw [if_pos h2] at h
      rw [if_pos h2]
      cases hp : tls_protocol_table
          ((((sb.drop 5).take (int_from_bytes ((sb.take 5).drop 3))).drop 4).take 2) with
      | none =>
        rw [hp] at h
        simp at h
      | some proto =>
        rw [hp, Option.some_bind] at h
        cases hc : csmap ((((sb.drop 5).take
            (int_from_bytes ((sb.take 5).drop 3))).drop
            (39 + int_from_bytes (((sb.drop 5).take
              (int_from_bytes ((sb.take 5).drop 3))).drop 38 |>.take 1))).take 2) with
        | none =>
          rw [hc] at h
          simp at h
        | some cs' =>
          rw [hc, Option.some_bind] at h
          simp only [Option.some.injEq, Prod.mk.injEq] at h
          exact h.2.2.2.1.symm
    · rw [if_neg h2] at h
      rw [if_neg h2]
      simp only [Option.some.injEq, Prod.mk.injEq] at h
      exact h.2.2.2.1.symm
  · rw [if_neg h1] at h
    rw [if_neg h1]
    simp only [Option.some.injEq, Prod.mk.injEq] at h
    exact h.2.2.2.1.symm

theorem client_hello_info_csid (cb : List Nat) (ssid : Option (List Nat))
    (tick : Option SessionLabel) :
    (client_hello_info cb ssid tick).1 = client_session_id_of cb := by
  unfold client_hello_info client_session_id_of
  by_cases h1 : cb.take 1 = [0x16]
  · rw [if_pos h1, if_pos h1]
    by_cases h2 : ((cb.drop 5).take (int_from_bytes ((cb.take 5).drop 3))).take 1
        = [0x01]
    · rw [if_pos h2, if_pos h2]
    · rw [if_neg h2, if_neg h2]
  · rw [if_neg h1, if_neg h1]

/-- C5: `parse_session_info` sets the `session_id` field by exactly the
tie-break table — server id present and client id absent gives "new";
both present and byte-equal gives "reused"; both present and unequal
gives "new"; server id absent leaves the field unset regardless of the
client session id. -/
theorem c5_session_id_tie_break {α : Type} (csmap : List Nat → Option α)
    (sb cb : List Nat) (info : SessionInfo α)
    (h : parse_session_info csmap sb cb = some info) :
    info.session_id = session_id_tie_break (server_session_id_of sb)
      (client_session_id_of cb) := by
  unfold parse_session_info at h
  cases hs : server_hello_info csmap sb with
  | none =>
    rw [hs] at h
    simp at h
  | some tup =>
    obtain ⟨p, cs, comp, ssid, tick⟩ := tup
    rw [hs, Option.map_some'] at h
    have hssid := server_hello_info_ssid csmap sb p cs comp ssid tick hs
    have hinfo := Option.some.inj h
    obtain ⟨csid, st, hcc⟩ : ∃ a b, client_hello_info cb ssid tick = (a, b) :=
      ⟨_, _, rfl⟩
    have hcsid : csid = client_session_id_of cb := by
      rw [← client_hello_info_csid cb ssid tick, hcc]
    rw [← hinfo]
    simp only [hcc]
    rw [← hssid, ← hcsid]
    cases ssid with
    | none => rfl
    | some s =>
      cases csid with
      | none => rfl
      | some c =>
        by_cases hcs : c = s
        · simp [session_id_tie_break, hcs]
        · simp [session_id_tie_break, hcs]

/-- Witness for C5: the spec §8 scenario — a TLSv1.2 ServerHello and a
ClientHello presenting the same 32-byte session id yield
`session_id = reused`. -/
theorem c5_witness :
    ({ protocol := some TlsProtocol.tlsv1_2
       cipher_suite := some 47
       compression := false
       session_id := some SessionLabel.reused
       session_ticket := none } : SessionInfo Nat).session_id
      = session_id_tie_break
        (server_session_id_of ([0x16, 3, 3, 0, 78] ++ ([2, 0, 0, 74] ++ [3, 3]
          ++ List.replicate 32 7 ++ [32] ++ List.replicate 32 9
          ++ [0, 0x2F] ++ [0])))
        (client_session_id_of ([0x16, 3, 3, 0, 77] ++ ([1, 0, 0, 73] ++ [3, 3]
          ++ List.replicate 32 8 ++ [32] ++ List.replicate 32 9
          ++ [0, 2, 0, 0x2F] ++ [1, 0]))) :=
  c5_session_id_tie_break
    (fun c => if c = [0, 0x2F] then some 47 else none)
    ([0x16, 3, 3, 0, 78] ++ ([2, 0, 0, 74] ++ [3, 3]
      ++ List.replicate 32 7 ++ [32] ++ List.replicate 32 9
      ++ [0, 0x2F] ++ [0]))
    ([0x16, 3, 3, 0, 77] ++ ([1, 0, 0, 73] ++ [3, 3]
      ++ List.replicate 32 8 ++ [32] ++ List.replicate 32 9
      ++ [0, 2, 0, 0x2F] ++ [1, 0]))
    { protocol := some TlsProtocol.tlsv1_2
      cipher_suite := some 47
      compression := false
      session_id := some SessionLabel.reused
      session_ticket := none }
    (by decide)

end Oscrypto
